import Mathlib

/-!
Verification development for the repository-rewrite tool (`reporewrite.py`).

The Python source is shallowly embedded: pure computations become Lean
functions, stateful operations become explicit state passing over a
`Repo`/`RewriteState` model, and the outcomes of the external `git`
subprocesses (whose exit status the Python code branches on) are passed in
as boolean/`Except` oracle parameters.  Time values are modelled as `ℚ`
(Python `datetime` arithmetic over seconds), file contents as `List Char`
for text and `List Nat` for undecodable (binary) bytes.
-/

namespace RepoRewrite

/-! ## Git repository model

`Commit` carries the metadata fields the tool manipulates (author and
committer identity and dates); `Repo` records, for every ref, the list of
commits reachable from it (most recent first, the order `iter_commits`
enumerates), together with the checked-out branch `head`.
-/

structure Commit where
  sha : String
  authorName : String
  authorEmail : String
  committerName : String
  committerEmail : String
  authorDate : String
  committerDate : String
  deriving DecidableEq

structure Repo where
  refs : List (String × List Commit)
  head : String
  deriving DecidableEq

/-- `list(repo.iter_commits())`: the commits reachable from the checked-out
branch (`reporewrite.py:169`, `reporewrite.py:236`). -/
def iterCommits (repo : Repo) : List Commit :=
  (((repo.refs.find? (fun nr => nr.1 = repo.head)).map Prod.snd).getD [])

/-! ## TimelineGenerator: `CommitModifier.randomize_commit_dates`
(`reporewrite.py:158-186`).  `random.random()` is modelled by an injected
`rand : Nat → ℚ` (the i-th draw); the code itself imposes no bound, the
library guarantees each draw lies in `[0, 1)`.  The trailing
`random_seconds.sort(reverse=True)` is modelled by an insertion sort under
the reversed order, which produces the same descending sequence of values.
-/

def sortDesc (l : List ℚ) : List ℚ := l.insertionSort (fun a b => b ≤ a)

/-- `randomize_commit_dates`: draw one uniform sample per commit, scale by
`(end_date - start_date).total_seconds()`, sort descending (newest first),
and offset from `start_date`.  The function performs no validation of the
interval. -/
def randomize_commit_dates (repo : Repo) (start_date end_date : ℚ) (rand : Nat → ℚ) : List ℚ :=
  let num_commits := (iterCommits repo).length
  let time_range := end_date - start_date
  let random_seconds := (List.range num_commits).map (fun i => rand i * time_range)
  (sortDesc random_seconds).map (fun sec => start_date + sec)

/-! ## MetadataRewriter: `CommitModifier.update_commit_metadata` and
`CommitModifier._update_commit_dates` (`reporewrite.py:188-292`).

The author rewrite shells out to
`git filter-branch -f --env-filter '...' -- --all`; the `--all` makes the
underlying VCS primitive map the env-filter over every commit reachable
from every ref (the full-history, all-refs rewrite of spec §6), which is
what `filter_branch_all` captures.  `author_env_filter` is the transcription
of the generated shell filter at `reporewrite.py:199-206`; `date_env_filter`
transcribes the generated `.git/change_dates.sh` lookup
(`reporewrite.py:256-267`).  The exit status of each `git filter-branch`
subprocess is an input (`toolOk…`), since it is decided by the external
tool. -/

def author_env_filter (new_author new_email : String) (c : Commit) : Commit :=
  if c.authorName ≠ new_author ∨ c.authorEmail ≠ new_email then
    { c with authorName := new_author, authorEmail := new_email,
             committerName := new_author, committerEmail := new_email }
  else c

def filter_branch_all (f : Commit → Commit) (repo : Repo) : Repo :=
  { repo with refs := repo.refs.map (fun nr => (nr.1, nr.2.map f)) }

inductive RewriteError
  | countMismatch
  | toolError
  deriving DecidableEq

/-- State threaded through the metadata rewrite: the repository plus the
scratch files currently present under `.git` (the timestamp lookup table
`date_map.txt` and the filter script `change_dates.sh`). -/
structure RewriteState where
  repo : Repo
  scratch : List String
  deriving DecidableEq

/-- Python `dict` insertion at `reporewrite.py:244-246`: a duplicate
key overwrites in place, a fresh key is appended in insertion order. -/
def insertDateEntry (m : List (String × String)) (k v : String) : List (String × String) :=
  if m.any (fun e => e.1 = k) then m.map (fun e => if e.1 = k then (k, v) else e)
  else m ++ [(k, v)]

/-- The `date_map` of `_update_commit_dates`: each commit's 7-character
short id mapped to its zipped new date (`reporewrite.py:243-246`). -/
def buildDateMap (commits : List Commit) (new_dates : List String) : List (String × String) :=
  (commits.zip new_dates).foldl (fun m cd => insertDateEntry m (cd.1.sha.take 7) cd.2) []

/-- The per-commit effect encoded by `.git/change_dates.sh`: the first
map line whose short id is a prefix of `GIT_COMMIT` supplies both dates
(`reporewrite.py:256-267`). -/
def date_env_filter (dm : List (String × String)) (c : Commit) : Commit :=
  match dm.find? (fun e => e.1.isPrefixOf c.sha) with
  | some e => { c with authorDate := e.2, committerDate := e.2 }
  | none => c

/-- `_update_commit_dates` (`reporewrite.py:232-292`): validate the count
against `iter_commits`, write the two scratch files, run
`git filter-branch`, raise on nonzero exit status, and only then remove the
scratch files.  On tool failure the `RuntimeError` is raised before the
`os.remove` calls, so the scratch files stay in the state. -/
def update_commit_dates (new_dates : List String) (toolOk : Bool) (st : RewriteState) :
    Option RewriteError × RewriteState :=
  let commits := iterCommits st.repo
  if commits.length ≠ new_dates.length then
    (some .countMismatch, st)
  else
    let dm := buildDateMap commits new_dates
    let st1 : RewriteState := { st with scratch := st.scratch ++ ["date_map.txt", "change_dates.sh"] }
    if toolOk then
      let st2 : RewriteState :=
        { repo := filter_branch_all (date_env_filter dm) st1.repo,
          scratch := st1.scratch.filter (fun f => !(f = "date_map.txt" || f = "change_dates.sh")) }
      (none, st2)
    else
      (some .toolError, st1)

/-- `update_commit_metadata` (`reporewrite.py:188-230`): when both identity
strings are nonempty (Python truthiness) the author env-filter is applied
via `git filter-branch -f … -- --all` first; only afterwards, and only when
`new_dates` is a nonempty list (`if new_dates:`), is `_update_commit_dates`
invoked. -/
def update_commit_metadata (new_author new_email : String) (new_dates : Option (List String))
    (toolOkAuthor toolOkDates : Bool) (st : RewriteState) : Option RewriteError × RewriteState :=
  if new_author ≠ "" ∧ new_email ≠ "" then
    if toolOkAuthor then
      let st1 : RewriteState :=
        { st with repo := filter_branch_all (author_env_filter new_author new_email) st.repo }
      if (new_dates.getD []).isEmpty then (none, st1)
      else update_commit_dates (new_dates.getD []) toolOkDates st1
    else (some .toolError, st)
  else
    if (new_dates.getD []).isEmpty then (none, st)
    else update_commit_dates (new_dates.getD []) toolOkDates st

/-! ## RefManager: `BranchRemoteManager.rename_branch`
(`reporewrite.py:307-327`).  The method returns `False` after logging a
distinct ERROR event on each of its two validation paths ("does not exist"
vs "already exists") and `True` after `git branch -m old new`; the outcome
type below distinguishes the three exits exactly as the log does. -/

inductive RenameOutcome
  | notFound
  | alreadyExists
  | renamed
  deriving DecidableEq

def rename_branch (branches : List String) (old_name new_name : String) :
    RenameOutcome × List String :=
  if old_name ∉ branches then (.notFound, branches)
  else if new_name ∈ branches then (.alreadyExists, branches)
  else (.renamed, branches.map (fun b => if b = old_name then new_name else b))

/-! ## ContentScrubber: `FileProcessor.scan_and_replace`,
`FileProcessor.update_all_files` and
`BackendController.clean_sensitive_data`
(`reporewrite.py:373-425`, `reporewrite.py:773-792`).

A file is either decodable text or binary (a `UnicodeDecodeError` on read).
The claims exercise metacharacter-free patterns, for which Python's
`re.search`/`re.sub` coincide with literal substring search and
left-to-right non-overlapping literal replacement; `isPre`, `containsSeq`
and `replaceAll` implement exactly those semantics over `List Char`
(including `re`'s treatment of the empty pattern, which matches at every
position). -/

inductive FileData
  | text (content : List Char)
  | binary (bytes : List Nat)
  deriving DecidableEq

/-- `p` is a prefix of `l` (the anchored match of a literal pattern). -/
def isPre : List Char → List Char → Bool
  | [], _ => true
  | _ :: _, [] => false
  | a :: p, b :: l => if a = b then isPre p l else false

/-- `re.search(p, l)` for a literal pattern `p`: some suffix of `l` starts
with `p`. -/
def containsSeq (p : List Char) : List Char → Bool
  | [] => p.isEmpty
  | b :: l => isPre p (b :: l) || containsSeq p l

/-- The scan of `re.sub`, structurally recursive on a fuel that bounds the
length of the remaining text (a match consumes at least the matched text,
so one unit of fuel per character suffices). -/
def replaceAllFuel (p r : List Char) : Nat → List Char → List Char
  | _, [] => if p.isEmpty then r else []
  | 0, _ :: _ => []
  | fuel + 1, c :: cs =>
    if p.isEmpty then r ++ c :: replaceAllFuel p r fuel cs
    else if isPre p (c :: cs) then r ++ replaceAllFuel p r fuel (List.drop (p.length - 1) cs)
    else c :: replaceAllFuel p r fuel cs

/-- `re.sub(p, r, l)` for a literal pattern `p`: leftmost non-overlapping
occurrences of `p` are replaced by `r`; an empty pattern inserts `r` at
every position. -/
def replaceAll (p r l : List Char) : List Char :=
  replaceAllFuel p r l.length l

/-- The pattern loop of `scan_and_replace` (`reporewrite.py:390-394`):
each pattern found in the current content is substituted and the
modification flag is raised. -/
def scrubContent (patterns : List (List Char)) (replacement : List Char) (content : List Char) :
    List Char × Bool :=
  patterns.foldl
    (fun acc p => if containsSeq p acc.1 then (replaceAll p replacement acc.1, true) else acc)
    (content, false)

/-- `scan_and_replace` on an existing file: binary files are skipped
untouched (`reporewrite.py:381-387`); text files go through the pattern
loop and are written back only when modified (so the resulting content
always equals the loop's output). -/
def scan_file (patterns : List (List Char)) (replacement : List Char) : FileData → Bool × FileData
  | .binary bs => (false, .binary bs)
  | .text content =>
    let res := scrubContent patterns replacement content
    (res.2, .text res.1)

/-- `scan_and_replace` including the `os.path.isfile` guard
(`reporewrite.py:377-379`): a missing file yields `False`. -/
def scan_and_replace (patterns : List (List Char)) (replacement : List Char) :
    Option FileData → Bool × Option FileData
  | none => (false, none)
  | some fd =>
    let res := scan_file patterns replacement fd
    (res.1, some res.2)

/-- `update_all_files` (`reporewrite.py:406-425`): walk the repository's
files (the `.git` directory is pruned before the walk reaches it, so the
walked list contains only work-tree files), scrubbing each and counting the
modified ones. -/
def update_all_files (patterns : List (List Char)) (replacement : List Char)
    (files : List FileData) : Nat × List FileData :=
  files.foldl
    (fun acc fd =>
      let res := scan_file patterns replacement fd
      ((if res.1 then acc.1 + 1 else acc.1), acc.2 ++ [res.2]))
    (0, [])

/-- `clean_sensitive_data` (`reporewrite.py:773-792`): run
`update_all_files`, and only when the modified count is positive stage and
commit, which appends one commit (modelled by the commit counter). -/
def clean_sensitive_data (patterns : List (List Char)) (replacement : List Char)
    (files : List FileData) (commitCount : Nat) : List FileData × Nat :=
  let res := update_all_files patterns replacement files
  if 0 < res.1 then (res.2, commitCount + 1) else (res.2, commitCount)

/-! ## BatchOrchestrator: `BackendController.process_batch`
(`reporewrite.py:646-740`).

The per-item `try` body is a sequence of guarded steps, each of which can
raise; the guards come from the operations dictionary (Python truthiness of
the corresponding entries, a missing entry read as empty).  The outcome of
each effectful step for each work item is an oracle (`ItemWorld`): `.ok`
when the step returns, `.error msg` when it raises.  The `except` clause
records the message, and the `finally` clause always runs
`BackendController.cleanup` (which swallows its own errors,
`reporewrite.py:818-826`) and then appends the item's result; the second
component of `processOneRepo` counts the cleanup invocations of the item.
-/

structure BatchOps where
  new_author : String
  new_email : String
  branch_mapping : List (String × String)
  patterns : List String
  replacement : String
  remote_url : String
  token : String
  repo_name_template : String

structure ItemWorld where
  initStep : Except String Unit
  rewriteStep : Except String Unit
  renameStep : Except String Unit
  cleanStep : Except String Unit
  pushStep : Except String Unit

structure BatchResult where
  repo_url : String
  success : Bool
  error : Option String
  operations_completed : List String
  deriving DecidableEq

/-- `operations.get('new_author') and operations.get('new_email')`. -/
def guardRewrite (ops : BatchOps) : Bool := ops.new_author ≠ "" ∧ ops.new_email ≠ ""

/-- `operations.get('branch_mapping')` truthiness. -/
def guardRename (ops : BatchOps) : Bool := ops.branch_mapping ≠ []

/-- `operations.get('patterns') and operations.get('replacement')`. -/
def guardClean (ops : BatchOps) : Bool := ops.patterns ≠ [] ∧ ops.replacement ≠ ""

/-- `remote_url or (token and repo_name_for_remote)`, where
`repo_name_for_remote` is non-`None` exactly when a name template was
supplied (`reporewrite.py:716-726`). -/
def guardPush (ops : BatchOps) : Bool :=
  ops.remote_url ≠ "" ∨ (ops.token ≠ "" ∧ ops.repo_name_template ≠ "")

/-- One guarded step of the `try` body: skipped once an earlier step has
raised, skipped when its guard is off, otherwise either appends its name to
`operations_completed` or raises. -/
def stepRun (enabled : Bool) (name : String) (out : Except String Unit)
    (acc : List String × Option String) : List String × Option String :=
  match acc.2 with
  | some e => (acc.1, some e)
  | none =>
    if enabled then
      match out with
      | .ok _ => (acc.1 ++ [name], none)
      | .error e => (acc.1, some e)
    else (acc.1, none)

/-- The body of one loop iteration of `process_batch`, including the
`except`/`finally` handling: the returned `Nat` counts how many times the
working-copy cleanup ran for this item. -/
def processOneRepo (ops : BatchOps) (w : ItemWorld) (url : String) : BatchResult × Nat :=
  match w.initStep with
  | .error e => ({ repo_url := url, success := false, error := some e, operations_completed := [] }, 1)
  | .ok _ =>
    let a1 := stepRun (guardRewrite ops) "rewrite_history" w.rewriteStep ([], none)
    let a2 := stepRun (guardRename ops) "rename_branches" w.renameStep a1
    let a3 := stepRun (guardClean ops) "clean_sensitive_data" w.cleanStep a2
    let a4 := stepRun (guardPush ops) "setup_remote_and_push" w.pushStep a3
    ({ repo_url := url, success := a4.2.isNone, error := a4.2, operations_completed := a4.1 }, 1)

/-- The `for i, repo_url in enumerate(repo_urls)` loop: one result appended
per item, cleanup invocations accumulated. -/
def processLoop (ops : BatchOps) (world : Nat → ItemWorld) :
    List String → Nat → List BatchResult × Nat
  | [], _ => ([], 0)
  | url :: rest, i =>
    let rc := processOneRepo ops (world i) url
    let rest' := processLoop ops world rest (i + 1)
    (rc.1 :: rest'.1, rc.2 + rest'.2)

/-- `process_batch` (`reporewrite.py:646-740`). -/
def process_batch (ops : BatchOps) (world : Nat → ItemWorld) (urls : List String) :
    List BatchResult × Nat :=
  processLoop ops world urls 0

/-! ## Auxiliary definitions used by the correctness arguments -/

/-- The content component of the pattern loop of `scan_and_replace`,
written as a plain recursion (the loop's content does not depend on the
modification flag). -/
def scrubCore (r : List Char) : List (List Char) → List Char → List Char
  | [], c => c
  | p :: ps, c => scrubCore r ps (if containsSeq p c then replaceAll p r c else c)

instance : IsTotal ℚ (fun a b : ℚ => b ≤ a) := ⟨fun a b => le_total b a⟩

instance : IsTrans ℚ (fun a b : ℚ => b ≤ a) := ⟨fun _ _ _ h₁ h₂ => le_trans h₂ h₁⟩

/-- A concrete commit used by witnesses and counterexamples. -/
def sampleCommit : Commit :=
  { sha := "abc1234def", authorName := "Old Author", authorEmail := "old@example.com",
    committerName := "Old Author", committerEmail := "old@example.com",
    authorDate := "2020-01-01 00:00:00", committerDate := "2020-01-01 00:00:00" }

/-- A second concrete commit. -/
def sampleCommit2 : Commit :=
  { sha := "def5678abc", authorName := "Second Author", authorEmail := "second@example.com",
    committerName := "Second Author", committerEmail := "second@example.com",
    authorDate := "2021-01-01 00:00:00", committerDate := "2021-01-01 00:00:00" }

/-- A repository with a single ref holding one commit. -/
def repoOne : Repo := { refs := [("master", [sampleCommit])], head := "master" }

/-- A repository with two refs. -/
def repoTwo : Repo :=
  { refs := [("master", [sampleCommit2, sampleCommit]), ("dev", [sampleCommit])],
    head := "master" }

/-- Rewrite state over `repoOne` with no scratch files present. -/
def stOne : RewriteState := { repo := repoOne, scratch := [] }

/-- Rewrite state over `repoTwo` with no scratch files present. -/
def stTwo : RewriteState := { repo := repoTwo, scratch := [] }

/-! ## Lemmas about literal search and replacement -/

theorem isPre_nil (p : List Char) : isPre p [] = p.isEmpty := by
  cases p <;> rfl

theorem isPre_self_append (p t : List Char) : isPre p (p ++ t) = true := by
  induction p with
  | nil => rfl
  | cons a p ih => simp [isPre, ih]

theorem containsSeq_of_isPre {p l : List Char} (h : isPre p l = true) :
    containsSeq p l = true := by
  cases l with
  | nil => rw [containsSeq]; rw [isPre_nil] at h; exact h
  | cons b l => simp [containsSeq, h]

theorem containsSeq_cons {p l : List Char} (c : Char) (h : containsSeq p l = true) :
    containsSeq p (c :: l) = true := by
  simp [containsSeq, h]

theorem containsSeq_drop {q l : List Char} (k : Nat)
    (h : containsSeq q (List.drop k l) = true) : containsSeq q l = true := by
  induction l generalizing k with
  | nil => simpa using h
  | cons x l ih =>
    cases k with
    | zero => simpa using h
    | succ k =>
      rw [List.drop_succ_cons] at h
      exact containsSeq_cons x (ih k h)

theorem isPre_append_disjoint {s rr : List Char} (t : List Char) (hs : s ≠ []) (hrr : rr ≠ [])
    (hd : ∀ a ∈ s, a ∉ rr) : isPre s (rr ++ t) = false := by
  obtain ⟨a, s', rfl⟩ := List.exists_cons_of_ne_nil hs
  obtain ⟨x, rr', rfl⟩ := List.exists_cons_of_ne_nil hrr
  have hax : a ≠ x := by
    intro h
    exact hd a (List.mem_cons_self a s') (h ▸ List.mem_cons_self x rr')
  simp [isPre, hax]

theorem containsSeq_append_disjoint {p : List Char} (rr t : List Char) (hp : p ≠ [])
    (hd : ∀ x ∈ rr, x ∉ p) : containsSeq p (rr ++ t) = containsSeq p t := by
  induction rr with
  | nil => rfl
  | cons x rr ih =>
    obtain ⟨a, p', rfl⟩ := List.exists_cons_of_ne_nil hp
    have hax : a ≠ x := by
      intro h
      exact hd x (List.mem_cons_self x rr) (h ▸ List.mem_cons_self a p')
    rw [List.cons_append, containsSeq]
    rw [ih (fun y hy => hd y (List.mem_cons_of_mem x hy))]
    simp [isPre, hax]

theorem replaceAllFuel_nil (p r : List Char) (fuel : Nat) :
    replaceAllFuel p r fuel [] = if p.isEmpty then r else [] := by
  cases fuel <;> rfl

/-- If a block with no character of `s` ever matched as a prefix of the
rewrite's output, `s` would have to start inside it; it cannot. -/
theorem isPre_replaceAllFuel {p r : List Char} (hr : r ≠ []) :
    ∀ fuel l, l.length ≤ fuel → ∀ s, s ≠ [] → (∀ a ∈ s, a ∉ r) →
      isPre s (replaceAllFuel p r fuel l) = true → isPre s l = true := by
  intro fuel
  induction fuel with
  | zero =>
    intro l hl s hs hd h
    have hnil : l = [] := List.eq_nil_of_length_eq_zero (Nat.le_zero.mp hl)
    subst hnil
    rw [replaceAllFuel_nil] at h
    by_cases hpe : p.isEmpty
    · rw [if_pos hpe] at h
      have hfalse := isPre_append_disjoint [] hs hr hd
      rw [List.append_nil] at hfalse
      rw [h] at hfalse
      exact absurd hfalse (by simp)
    · rw [if_neg hpe, isPre_nil] at h
      exact absurd (List.isEmpty_iff.mp h) hs
  | succ fuel ih =>
    intro l hl s hs hd h
    cases l with
    | nil =>
      rw [replaceAllFuel_nil] at h
      by_cases hpe : p.isEmpty
      · rw [if_pos hpe] at h
        have hfalse := isPre_append_disjoint [] hs hr hd
        rw [List.append_nil] at hfalse
        rw [h] at hfalse
        exact absurd hfalse (by simp)
      · rw [if_neg hpe, isPre_nil] at h
        exact absurd (List.isEmpty_iff.mp h) hs
    | cons c cs =>
      rw [replaceAllFuel] at h
      by_cases hpe : p.isEmpty
      · rw [if_pos hpe] at h
        rw [isPre_append_disjoint _ hs hr hd] at h
        exact absurd h (by simp)
      · rw [if_neg hpe] at h
        by_cases hm : isPre p (c :: cs) = true
        · rw [if_pos hm] at h
          rw [isPre_append_disjoint _ hs hr hd] at h
          exact absurd h (by simp)
        · rw [if_neg hm] at h
          obtain ⟨a, s', rfl⟩ := List.exists_cons_of_ne_nil hs
          rw [isPre] at h ⊢
          by_cases hac : a = c
          · rw [if_pos hac] at h ⊢
            cases s' with
            | nil => rfl
            | cons b s'' =>
              exact ih cs (Nat.le_of_succ_le_succ hl) (b :: s'') (by simp)
                (fun y hy => hd y (List.mem_cons_of_mem a hy)) h
          · rw [if_neg hac] at h
            exact absurd h (by simp)

/-- After replacing every occurrence of `p` by `r`, no occurrence of `p`
remains, provided `r` is nonempty and shares no character with `p` (so no
new occurrence can be assembled across a replacement boundary). -/
theorem containsSeq_replaceAllFuel_self {p r : List Char} (hp : p ≠ []) (hr : r ≠ [])
    (hd : ∀ a ∈ p, a ∉ r) :
    ∀ fuel l, l.length ≤ fuel → containsSeq p (replaceAllFuel p r fuel l) = false := by
  have hd' : ∀ x ∈ r, x ∉ p := fun x hx hxp => hd x hxp hx
  have hpe : p.isEmpty = false := by simpa [List.isEmpty_iff] using hp
  intro fuel
  induction fuel with
  | zero =>
    intro l hl
    have hnil : l = [] := List.eq_nil_of_length_eq_zero (Nat.le_zero.mp hl)
    subst hnil
    rw [replaceAllFuel_nil, if_neg (by simp [hpe])]
    rw [containsSeq, hpe]
  | succ fuel ih =>
    intro l hl
    cases l with
    | nil =>
      rw [replaceAllFuel_nil, if_neg (by simp [hpe])]
      rw [containsSeq, hpe]
    | cons c cs =>
      rw [replaceAllFuel, if_neg (by simp [hpe])]
      by_cases hm : isPre p (c :: cs) = true
      · rw [if_pos hm, containsSeq_append_disjoint _ _ hp hd']
        exact ih _ (by simp [List.length_drop] at hl ⊢; omega)
      · rw [if_neg hm, containsSeq]
        have h2 : containsSeq p (replaceAllFuel p r fuel cs) = false :=
          ih cs (Nat.le_of_succ_le_succ hl)
        have h1 : isPre p (c :: replaceAllFuel p r fuel cs) = false := by
          by_contra hcon
          rw [Bool.not_eq_false] at hcon
          have hfold : (c :: replaceAllFuel p r fuel cs)
              = replaceAllFuel p r (fuel + 1) (c :: cs) := by
            rw [replaceAllFuel, if_neg (by simp [hpe]), if_neg hm]
          rw [hfold] at hcon
          exact hm (isPre_replaceAllFuel hr (fuel + 1) (c :: cs) hl p hp hd hcon)
        rw [h1, h2]
        rfl

/-- A replacement pass for any pattern cannot create an occurrence of a
block `q` that was absent, provided `q` shares no character with the
replacement text and the replacement text is nonempty. -/
theorem containsSeq_replaceAllFuel_mono {p r : List Char} (hp : p ≠ []) (hr : r ≠ []) :
    ∀ fuel l, l.length ≤ fuel → ∀ q, q ≠ [] → (∀ a ∈ q, a ∉ r) →
      containsSeq q (replaceAllFuel p r fuel l) = true → containsSeq q l = true := by
  have hpe : p.isEmpty = false := by simpa [List.isEmpty_iff] using hp
  intro fuel
  induction fuel with
  | zero =>
    intro l hl q hq hdq h
    have hnil : l = [] := List.eq_nil_of_length_eq_zero (Nat.le_zero.mp hl)
    subst hnil
    rw [replaceAllFuel_nil, if_neg (by simp [hpe])] at h
    rw [containsSeq] at h
    exact absurd (List.isEmpty_iff.mp h) hq
  | succ fuel ih =>
    intro l hl q hq hdq h
    cases l with
    | nil =>
      rw [replaceAllFuel_nil, if_neg (by simp [hpe])] at h
      rw [containsSeq] at h
      exact absurd (List.isEmpty_iff.mp h) hq
    | cons c cs =>
      have hdq' : ∀ x ∈ r, x ∉ q := fun x hx hxq => hdq x hxq hx
      rw [replaceAllFuel, if_neg (by simp [hpe])] at h
      by_cases hm : isPre p (c :: cs) = true
      · rw [if_pos hm, containsSeq_append_disjoint _ _ hq hdq'] at h
        have := ih _ (by simp [List.length_drop] at hl ⊢; omega) q hq hdq h
        exact containsSeq_cons c (containsSeq_drop _ this)
      · rw [if_neg hm, containsSeq] at h
        rcases Bool.or_eq_true_iff.mp h with h1 | h2
        · have hfold : (c :: replaceAllFuel p r fuel cs)
              = replaceAllFuel p r (fuel + 1) (c :: cs) := by
            rw [replaceAllFuel, if_neg (by simp [hpe]), if_neg hm]
          rw [hfold] at h1
          exact containsSeq_of_isPre
            (isPre_replaceAllFuel hr (fuel + 1) (c :: cs) hl q hq hdq h1)
        · exact containsSeq_cons c (ih cs (Nat.le_of_succ_le_succ hl) q hq hdq h2)

/-- When the pattern occurred, the replacement text occurs in the output. -/
theorem containsSeq_replaceAllFuel_repl {p r : List Char} (hp : p ≠ []) :
    ∀ fuel l, l.length ≤ fuel → containsSeq p l = true →
      containsSeq r (replaceAllFuel p r fuel l) = true := by
  have hpe : p.isEmpty = false := by simpa [List.isEmpty_iff] using hp
  intro fuel
  induction fuel with
  | zero =>
    intro l hl hc
    have hnil : l = [] := List.eq_nil_of_length_eq_zero (Nat.le_zero.mp hl)
    subst hnil
    rw [containsSeq, hpe] at hc
    exact absurd hc (by simp)
  | succ fuel ih =>
    intro l hl hc
    cases l with
    | nil =>
      rw [containsSeq, hpe] at hc
      exact absurd hc (by simp)
    | cons c cs =>
      rw [replaceAllFuel, if_neg (by simp [hpe])]
      by_cases hm : isPre p (c :: cs) = true
      · rw [if_pos hm]
        exact containsSeq_of_isPre (isPre_self_append r _)
      · rw [if_neg hm]
        rw [containsSeq] at hc
        rcases Bool.or_eq_true_iff.mp hc with h1 | h2
        · exact absurd h1 hm
        · exact containsSeq_cons c (ih cs (Nat.le_of_succ_le_succ hl) h2)

theorem containsSeq_replaceAll_self {p r : List Char} (hp : p ≠ []) (hr : r ≠ [])
    (hd : ∀ a ∈ p, a ∉ r) (l : List Char) : containsSeq p (replaceAll p r l) = false :=
  containsSeq_replaceAllFuel_self hp hr hd l.length l le_rfl

theorem containsSeq_replaceAll_mono {p r : List Char} (hp : p ≠ []) (hr : r ≠ [])
    {q : List Char} (hq : q ≠ []) (hdq : ∀ a ∈ q, a ∉ r) {l : List Char}
    (h : containsSeq q l = false) : containsSeq q (replaceAll p r l) = false := by
  by_contra hcon
  rw [Bool.not_eq_false] at hcon
  rw [containsSeq_replaceAllFuel_mono hp hr l.length l le_rfl q hq hdq hcon] at h
  exact absurd h (by simp)

theorem containsSeq_replaceAll_repl {p r : List Char} (hp : p ≠ []) {l : List Char}
    (h : containsSeq p l = true) : containsSeq r (replaceAll p r l) = true :=
  containsSeq_replaceAllFuel_repl hp l.length l le_rfl h

/-! ## Lemmas about the pattern loop of `scan_and_replace` -/

theorem scrubContent_fst (patterns : List (List Char)) (r : List Char) :
    ∀ (c : List Char) (b : Bool),
      (patterns.foldl
        (fun acc p => if containsSeq p acc.1 then (replaceAll p r acc.1, true) else acc)
        (c, b)).1 = scrubCore r patterns c := by
  induction patterns with
  | nil => intro c b; rfl
  | cons p ps ih =>
    intro c b
    rw [List.foldl_cons, scrubCore]
    by_cases hc : containsSeq p c = true
    · rw [if_pos hc, if_pos hc]
      exact ih _ _
    · rw [if_neg hc, if_neg hc]
      exact ih _ _

theorem scrubContent_flag_true (patterns : List (List Char)) (r : List Char) :
    ∀ (c : List Char),
      (patterns.foldl
        (fun acc p => if containsSeq p acc.1 then (replaceAll p r acc.1, true) else acc)
        (c, true)).2 = true := by
  induction patterns with
  | nil => intro c; rfl
  | cons p ps ih =>
    intro c
    rw [List.foldl_cons]
    by_cases hc : containsSeq p c = true
    · rw [if_pos hc]; exact ih _
    · rw [if_neg hc]; exact ih _

/-- When no pattern occurs in the content, the loop changes nothing and the
modification flag stays down. -/
theorem scrubContent_no_match (patterns : List (List Char)) (r : List Char) (c : List Char)
    (h : ∀ p ∈ patterns, containsSeq p c = false) :
    scrubContent patterns r c = (c, false) := by
  induction patterns with
  | nil => rfl
  | cons p ps ih =>
    rw [scrubContent, List.foldl_cons, if_neg (by simp [h p (List.mem_cons_self p ps)])]
    exact ih (fun q hq => h q (List.mem_cons_of_mem p hq))

/-- When the modification flag ends down, the content is untouched. -/
theorem scrubContent_unchanged_of_flag (patterns : List (List Char)) (r : List Char) :
    ∀ c, (scrubContent patterns r c).2 = false → (scrubContent patterns r c).1 = c := by
  induction patterns with
  | nil => intro c _; rfl
  | cons p ps ih =>
    intro c hflag
    rw [scrubContent, List.foldl_cons] at hflag ⊢
    by_cases hc : containsSeq p c = true
    · rw [if_pos hc] at hflag
      rw [scrubContent_flag_true] at hflag
      exact absurd hflag (by simp)
    · rw [if_neg hc] at hflag ⊢
      exact ih c hflag

/-- A block absent from the content and character-disjoint from the
replacement text stays absent through the whole pattern loop. -/
theorem scrubCore_preserves_absent (r : List Char) (hr : r ≠ []) :
    ∀ (ps : List (List Char)), (∀ p ∈ ps, p ≠ []) →
      ∀ (c q : List Char), q ≠ [] → (∀ a ∈ q, a ∉ r) → containsSeq q c = false →
        containsSeq q (scrubCore r ps c) = false := by
  intro ps
  induction ps with
  | nil => intro _ c q _ _ h; exact h
  | cons p ps ih =>
    intro hps c q hq hdq h
    rw [scrubCore]
    refine ih (fun x hx => hps x (List.mem_cons_of_mem p hx)) _ q hq hdq ?_
    by_cases hc : containsSeq p c = true
    · rw [if_pos hc]
      exact containsSeq_replaceAll_mono (hps p (List.mem_cons_self p ps)) hr hq hdq h
    · rw [if_neg hc]
      exact h

/-- After the full pattern loop, none of the patterns occurs in the
resulting content. -/
theorem scrubCore_all_absent (r : List Char) (hr : r ≠ []) :
    ∀ (ps : List (List Char)), (∀ p ∈ ps, p ≠ [] ∧ ∀ a ∈ p, a ∉ r) →
      ∀ c, ∀ p ∈ ps, containsSeq p (scrubCore r ps c) = false := by
  intro ps
  induction ps with
  | nil => intro _ c p hp; exact absurd hp (by simp)
  | cons p₀ ps ih =>
    intro hps c p hp
    have hne : ∀ x ∈ p₀ :: ps, x ≠ [] := fun x hx => (hps x hx).1
    rw [scrubCore]
    rcases List.mem_cons.mp hp with rfl | hmem
    · have habs : containsSeq p (if containsSeq p c = true then replaceAll p r c else c) = false := by
        by_cases hc : containsSeq p c = true
        · rw [if_pos hc]
          exact containsSeq_replaceAll_self (hps p (List.mem_cons_self p ps)).1 hr
            (hps p (List.mem_cons_self p ps)).2 c
        · rw [if_neg hc]
          simpa using hc
      exact scrubCore_preserves_absent r hr ps
        (fun x hx => (hps x (List.mem_cons_of_mem p hx)).1) _ p
        (hps p (List.mem_cons_self p ps)).1 (hps p (List.mem_cons_self p ps)).2 habs
    · exact ih (fun x hx => hps x (List.mem_cons_of_mem p₀ hx)) _ p hmem

/-- `update_all_files` is the per-file scrub mapped over the walked files,
together with the count of files whose scrub reported a modification. -/
theorem update_all_files_eq (ps : List (List Char)) (r : List Char) (files : List FileData) :
    update_all_files ps r files
      = (files.countP (fun fd => (scan_file ps r fd).1),
         files.map (fun fd => (scan_file ps r fd).2)) := by
  have aux : ∀ (fs : List FileData) (n : Nat) (acc : List FileData),
      fs.foldl
        (fun acc fd =>
          let res := scan_file ps r fd
          ((if res.1 then acc.1 + 1 else acc.1), acc.2 ++ [res.2])) (n, acc)
        = (n + fs.countP (fun fd => (scan_file ps r fd).1),
           acc ++ fs.map (fun fd => (scan_file ps r fd).2)) := by
    intro fs
    induction fs with
    | nil => intro n acc; simp
    | cons fd fs ih =>
      intro n acc
      rw [List.foldl_cons, ih]
      rw [List.countP_cons, List.map_cons]
      by_cases hf : (scan_file ps r fd).1 = true
      · simp [hf]; omega
      · simp [hf]
  rw [update_all_files, aux]
  simp

theorem map_self_of_mem {α : Type} (f : α → α) :
    ∀ l : List α, (∀ a ∈ l, f a = a) → l.map f = l := by
  intro l
  induction l with
  | nil => intro _; rfl
  | cons a l ih =>
    intro h
    rw [List.map_cons, h a (List.mem_cons_self a l),
      ih (fun x hx => h x (List.mem_cons_of_mem a hx))]

theorem clean_sensitive_data_fst (ps : List (List Char)) (r : List Char)
    (files : List FileData) (commitCount : Nat) :
    (clean_sensitive_data ps r files commitCount).1 = (update_all_files ps r files).2 := by
  rw [clean_sensitive_data]
  split <;> rfl

/-- Rescanning a file that already went through the scrub reports no
modification and leaves the file as it is, when every pattern is nonempty
and character-disjoint from the nonempty replacement text. -/
theorem scan_file_scrubbed (ps : List (List Char)) (r : List Char) (hr : r ≠ [])
    (hps : ∀ p ∈ ps, p ≠ [] ∧ ∀ a ∈ p, a ∉ r) (fd : FileData) :
    scan_file ps r ((scan_file ps r fd).2) = (false, (scan_file ps r fd).2) := by
  cases fd with
  | binary bs => rfl
  | text c =>
    have hcore : (scrubContent ps r c).1 = scrubCore r ps c := by
      rw [scrubContent]
      exact scrubContent_fst ps r c false
    have hcontent : (scan_file ps r (.text c)).2 = .text (scrubCore r ps c) := by
      rw [scan_file]
      simp only
      rw [hcore]
    rw [hcontent, scan_file]
    have habs : ∀ p ∈ ps, containsSeq p (scrubCore r ps c) = false :=
      fun p hp => scrubCore_all_absent r hr ps hps c p hp
    rw [scrubContent_no_match ps r _ habs]

/-- C5 (corrected), counterexample to the claim as stated: pattern matching
in `scan_and_replace` is case-sensitive, so on the file
"Copyright 2020 Jane Doe" the pattern `copyright` does not match: the call
returns `False`, the file is unchanged, it does not contain `[REDACTED]`,
and a case-insensitive occurrence of `copyright` remains. -/
theorem scan_and_replace_case_cex :
    scan_and_replace ["copyright".data] "[REDACTED]".data
        (some (.text "Copyright 2020 Jane Doe".data))
      = (false, some (.text "Copyright 2020 Jane Doe".data))
  ∧ containsSeq "[REDACTED]".data "Copyright 2020 Jane Doe".data = false
  ∧ containsSeq ("copyright".data.map Char.toLower)
      ("Copyright 2020 Jane Doe".data.map Char.toLower) = true := by
  decide

/-- C5 (corrected, amended claim): matching is case-sensitive.  For any
text file, scrubbing with pattern `copyright` and replacement `[REDACTED]`
leaves no case-sensitive occurrence of `copyright`, and inserts
`[REDACTED]` whenever the pattern occurred; the file
"Copyright 2020 Jane Doe" (capital C) is left unchanged with the scrub
reporting no modification; a file that cannot be decoded as text is left
byte-identical. -/
theorem scan_and_replace_amended :
    (∀ content : List Char,
      containsSeq "copyright".data
          (scrubContent ["copyright".data] "[REDACTED]".data content).1 = false
      ∧ (containsSeq "copyright".data content = true →
          containsSeq "[REDACTED]".data
            (scrubContent ["copyright".data] "[REDACTED]".data content).1 = true))
  ∧ scan_and_replace ["copyright".data] "[REDACTED]".data
        (some (.text "Copyright 2020 Jane Doe".data))
      = (false, some (.text "Copyright 2020 Jane Doe".data))
  ∧ (∀ bs : List Nat, scan_and_replace ["copyright".data] "[REDACTED]".data
        (some (.binary bs)) = (false, some (.binary bs))) := by
  refine ⟨?_, by decide, fun bs => rfl⟩
  intro content
  have hstep : scrubContent ["copyright".data] "[REDACTED]".data content
      = if containsSeq "copyright".data content = true
        then (replaceAll "copyright".data "[REDACTED]".data content, true)
        else (content, false) := by
    rw [scrubContent, List.foldl_cons, List.foldl_nil]
  by_cases hc : containsSeq "copyright".data content = true
  · rw [hstep, if_pos hc]
    exact ⟨containsSeq_replaceAll_self (by decide) (by decide) (by decide) content,
      fun _ => containsSeq_replaceAll_repl (by decide) hc⟩
  · rw [hstep, if_neg hc]
    exact ⟨by simpa using hc, fun hcc => absurd hcc hc⟩

/-- C5 witness: the amended claim evaluated on the lowercase file
"copyright 2020 Jane Doe". -/
theorem scan_and_replace_amended_witness :
    containsSeq "copyright".data
        (scrubContent ["copyright".data] "[REDACTED]".data "copyright 2020 Jane Doe".data).1
      = false
  ∧ containsSeq "[REDACTED]".data
        (scrubContent ["copyright".data] "[REDACTED]".data "copyright 2020 Jane Doe".data).1
      = true :=
  ⟨(scan_and_replace_amended.1 "copyright 2020 Jane Doe".data).1,
   (scan_and_replace_amended.1 "copyright 2020 Jane Doe".data).2 (by decide)⟩

/-- C6 (corrected), counterexample to the claim as stated: with pattern
`aa`, replacement `a` and a file containing "aaa", the first scrub yields
"aa" (one modification, one commit appended) and a second scrub modifies
again (count 1, not 0) and appends another commit: replacement can
recreate a pattern occurrence across the splice boundary. -/
theorem content_scrub_idempotence_cex :
    clean_sensitive_data ["aa".data] "a".data [.text "aaa".data] 0 = ([.text "aa".data], 1)
  ∧ (update_all_files ["aa".data] "a".data [.text "aa".data]).1 = 1
  ∧ clean_sensitive_data ["aa".data] "a".data [.text "aa".data] 1 = ([.text "a".data], 2) := by
  decide

/-- C6 (corrected, amended claim): the content scrub is idempotent whenever
every pattern is nonempty and shares no character with the nonempty
replacement string (in particular for the tool's default
`copyright`/`license`/`author` patterns with replacement `[REDACTED]`):
rerunning it on the output of a first run reports zero modified files,
leaves every file byte-identical, and creates no new commit.  For arbitrary
pattern/replacement pairs this fails (see the counterexample). -/
theorem content_scrub_idempotent_amended (ps : List (List Char)) (r : List Char)
    (files : List FileData) (commitCount : Nat) (hr : r ≠ [])
    (hps : ∀ p ∈ ps, p ≠ [] ∧ ∀ a ∈ p, a ∉ r) :
    (update_all_files ps r (clean_sensitive_data ps r files commitCount).1).1 = 0
  ∧ clean_sensitive_data ps r (clean_sensitive_data ps r files commitCount).1
      (clean_sensitive_data ps r files commitCount).2
    = clean_sensitive_data ps r files commitCount := by
  have hfiles1 : (clean_sensitive_data ps r files commitCount).1
      = files.map (fun fd => (scan_file ps r fd).2) := by
    rw [clean_sensitive_data_fst, update_all_files_eq]
  have hscan : ∀ fd ∈ (clean_sensitive_data ps r files commitCount).1,
      scan_file ps r fd = (false, fd) := by
    intro fd hfd
    rw [hfiles1] at hfd
    obtain ⟨fd₀, _, rfl⟩ := List.mem_map.mp hfd
    exact scan_file_scrubbed ps r hr hps fd₀
  have hsecond : update_all_files ps r (clean_sensitive_data ps r files commitCount).1
      = (0, (clean_sensitive_data ps r files commitCount).1) := by
    rw [update_all_files_eq]
    have hcount : List.countP (fun fd => (scan_file ps r fd).1)
        (clean_sensitive_data ps r files commitCount).1 = 0 := by
      rw [List.countP_eq_zero]
      intro fd hfd
      rw [hscan fd hfd]
      simp
    have hmap : List.map (fun fd => (scan_file ps r fd).2)
        (clean_sensitive_data ps r files commitCount).1
        = (clean_sensitive_data ps r files commitCount).1 :=
      map_self_of_mem _ _ (fun fd hfd => by rw [hscan fd hfd])
    rw [hcount, hmap]
  refine ⟨by rw [hsecond], ?_⟩
  conv_lhs => rw [clean_sensitive_data]
  rw [hsecond]
  simp

/-- C6 witness: the amended idempotence claim evaluated on one text file
containing a pattern occurrence. -/
theorem content_scrub_idempotent_amended_witness :
    (update_all_files ["ab".data] "[X]".data
        (clean_sensitive_data ["ab".data] "[X]".data [.text "zabz".data] 0).1).1 = 0
  ∧ clean_sensitive_data ["ab".data] "[X]".data
      (clean_sensitive_data ["ab".data] "[X]".data [.text "zabz".data] 0).1
      (clean_sensitive_data ["ab".data] "[X]".data [.text "zabz".data] 0).2
    = clean_sensitive_data ["ab".data] "[X]".data [.text "zabz".data] 0 :=
  content_scrub_idempotent_amended ["ab".data] "[X]".data [.text "zabz".data] 0
    (by decide) (by decide)

/-- C10 (confirmed): a text file in which no supplied pattern occurs is
reported unmodified and left byte-identical by `scan_and_replace`;
`update_all_files` returns exactly the number of walked files whose scrub
reported a match, maps each file to its scrubbed content, and any file
whose scrub reported no match is left byte-identical. -/
theorem scan_and_replace_no_match_frame (ps : List (List Char)) (r : List Char) :
    (∀ content : List Char, (∀ p ∈ ps, containsSeq p content = false) →
        scan_and_replace ps r (some (.text content)) = (false, some (.text content)))
  ∧ (∀ files : List FileData,
        update_all_files ps r files
          = (files.countP (fun fd => (scan_file ps r fd).1),
             files.map (fun fd => (scan_file ps r fd).2)))
  ∧ (∀ fd : FileData, (scan_file ps r fd).1 = false → (scan_file ps r fd).2 = fd) := by
  refine ⟨?_, fun files => update_all_files_eq ps r files, ?_⟩
  · intro content h
    rw [scan_and_replace, scan_file]
    rw [scrubContent_no_match ps r content h]
  · intro fd h
    cases fd with
    | binary bs => rfl
    | text c =>
      rw [scan_file] at h ⊢
      simp only at h ⊢
      rw [scrubContent_unchanged_of_flag ps r c h]

/-- C10 witness: the frame property evaluated on a two-file walk whose
text file matches no pattern. -/
theorem scan_and_replace_no_match_frame_witness :
    scan_and_replace ["xy".data] "Z".data (some (.text "ab".data))
      = (false, some (.text "ab".data))
  ∧ update_all_files ["xy".data] "Z".data [.text "ab".data, .binary [0]]
      = ([FileData.text "ab".data, FileData.binary [0]].countP
           (fun fd => (scan_file ["xy".data] "Z".data fd).1),
         [FileData.text "ab".data, FileData.binary [0]].map
           (fun fd => (scan_file ["xy".data] "Z".data fd).2))
  ∧ (scan_file ["xy".data] "Z".data (.binary [0])).2 = .binary [0] :=
  ⟨(scan_and_replace_no_match_frame ["xy".data] "Z".data).1 "ab".data (by decide),
   (scan_and_replace_no_match_frame ["xy".data] "Z".data).2.1 [.text "ab".data, .binary [0]],
   (scan_and_replace_no_match_frame ["xy".data] "Z".data).2.2 (.binary [0]) (by decide)⟩

/-! ## Lemmas about the metadata rewrite -/

theorem author_env_filter_fields (A E : String) (c : Commit) :
    (author_env_filter A E c).authorName = A ∧ (author_env_filter A E c).authorEmail = E := by
  rw [author_env_filter]
  split
  · exact ⟨rfl, rfl⟩
  · rename_i h
    push_neg at h
    exact ⟨h.1, h.2⟩

theorem date_env_filter_author (dm : List (String × String)) (c : Commit) :
    (date_env_filter dm c).authorName = c.authorName
  ∧ (date_env_filter dm c).authorEmail = c.authorEmail := by
  rw [date_env_filter]
  cases dm.find? (fun e => e.1.isPrefixOf c.sha) <;> exact ⟨rfl, rfl⟩

theorem filter_branch_all_names (f : Commit → Commit) (repo : Repo) :
    (filter_branch_all f repo).refs.map Prod.fst = repo.refs.map Prod.fst := by
  rw [filter_branch_all]
  simp [List.map_map]

theorem filter_branch_all_lengths (f : Commit → Commit) (repo : Repo) :
    (filter_branch_all f repo).refs.map (fun nr => nr.2.length)
      = repo.refs.map (fun nr => nr.2.length) := by
  rw [filter_branch_all]
  simp [List.map_map]

theorem filter_branch_all_comp (f g : Commit → Commit) (repo : Repo) :
    filter_branch_all g (filter_branch_all f repo)
      = filter_branch_all (fun c => g (f c)) repo := by
  rw [filter_branch_all, filter_branch_all, filter_branch_all]
  simp [List.map_map, Function.comp]

theorem filter_branch_all_fields (f : Commit → Commit) (A E : String)
    (hf : ∀ c, (f c).authorName = A ∧ (f c).authorEmail = E) (repo : Repo) :
    ∀ nr ∈ (filter_branch_all f repo).refs, ∀ c ∈ nr.2,
      c.authorName = A ∧ c.authorEmail = E := by
  intro nr hnr c hc
  rw [filter_branch_all] at hnr
  simp only [List.mem_map] at hnr
  obtain ⟨nr₀, _, rfl⟩ := hnr
  simp only [List.mem_map] at hc
  obtain ⟨c₀, _, rfl⟩ := hc
  exact hf c₀

theorem find?_refs_map (f : Commit → Commit) (h : String) :
    ∀ l : List (String × List Commit),
      (l.map (fun nr => (nr.1, nr.2.map f))).find? (fun nr => nr.1 = h)
        = (l.find? (fun nr => nr.1 = h)).map (fun nr => (nr.1, nr.2.map f)) := by
  intro l
  induction l with
  | nil => rfl
  | cons a l ih =>
    by_cases ha : a.1 = h
    · simp [List.find?_cons, ha]
    · simp [List.find?_cons, ha, ih]

theorem iterCommits_filter_branch_all (f : Commit → Commit) (repo : Repo) :
    iterCommits (filter_branch_all f repo) = (iterCommits repo).map f := by
  rw [iterCommits, iterCommits, filter_branch_all]
  rw [find?_refs_map]
  cases repo.refs.find? (fun nr => nr.1 = repo.head) <;> simp

theorem update_commit_dates_mismatch (ds : List String) (tk : Bool) (st : RewriteState)
    (h : (iterCommits st.repo).length ≠ ds.length) :
    update_commit_dates ds tk st = (some .countMismatch, st) := by
  rw [update_commit_dates, if_pos h]

theorem update_commit_dates_ok (ds : List String) (st : RewriteState)
    (h : (iterCommits st.repo).length = ds.length) :
    update_commit_dates ds true st
      = (none,
         { repo := filter_branch_all
             (date_env_filter (buildDateMap (iterCommits st.repo) ds)) st.repo,
           scratch := (st.scratch ++ ["date_map.txt", "change_dates.sh"]).filter
             (fun f => !(f = "date_map.txt" || f = "change_dates.sh")) }) := by
  rw [update_commit_dates, if_neg (by simp [h])]
  rfl

theorem update_commit_dates_toolfail (ds : List String) (st : RewriteState)
    (h : (iterCommits st.repo).length = ds.length) :
    update_commit_dates ds false st
      = (some .toolError,
         { st with scratch := st.scratch ++ ["date_map.txt", "change_dates.sh"] }) := by
  rw [update_commit_dates, if_neg (by simp [h])]
  rfl

theorem update_commit_metadata_authfail (A E : String) (hA : A ≠ "") (hE : E ≠ "")
    (nd : Option (List String)) (td : Bool) (st : RewriteState) :
    update_commit_metadata A E nd false td st = (some .toolError, st) := by
  rw [update_commit_metadata, if_pos ⟨hA, hE⟩]
  simp

theorem update_commit_metadata_auth_nodates (A E : String) (hA : A ≠ "") (hE : E ≠ "")
    (nd : Option (List String)) (hnd : nd = none ∨ nd = some []) (td : Bool)
    (st : RewriteState) :
    update_commit_metadata A E nd true td st
      = (none, { st with repo := filter_branch_all (author_env_filter A E) st.repo }) := by
  rcases hnd with rfl | rfl <;> simp [update_commit_metadata, hA, hE]

theorem update_commit_metadata_auth_dates (A E : String) (hA : A ≠ "") (hE : E ≠ "")
    (d : String) (ds : List String) (td : Bool) (st : RewriteState) :
    update_commit_metadata A E (some (d :: ds)) true td st
      = update_commit_dates (d :: ds) td
          { st with repo := filter_branch_all (author_env_filter A E) st.repo } := by
  simp [update_commit_metadata, hA, hE]

theorem update_commit_metadata_noauth (A E : String) (hAE : ¬(A ≠ "" ∧ E ≠ ""))
    (d : String) (ds : List String) (ta td : Bool) (st : RewriteState) :
    update_commit_metadata A E (some (d :: ds)) ta td st
      = update_commit_dates (d :: ds) td st := by
  rw [update_commit_metadata, if_neg hAE]
  simp

theorem update_commit_metadata_noauth_nodates (A E : String) (hAE : ¬(A ≠ "" ∧ E ≠ ""))
    (nd : Option (List String)) (hnd : nd = none ∨ nd = some []) (ta td : Bool)
    (st : RewriteState) :
    update_commit_metadata A E nd ta td st = (none, st) := by
  rcases hnd with rfl | rfl <;>
    · rw [update_commit_metadata, if_neg hAE]
      simp

/-- C2 (confirmed): a successful `update_commit_metadata` with nonempty new
identity strings leaves every commit reachable from every ref of the
repository with the new author name and email (the env-filter runs under
`git filter-branch … -- --all`, i.e. across all refs), and preserves the
set of ref names and the number of commits reachable from each ref. -/
theorem update_commit_metadata_identity (A E : String) (nd : Option (List String))
    (ta td : Bool) (st st' : RewriteState) (hA : A ≠ "") (hE : E ≠ "")
    (h : update_commit_metadata A E nd ta td st = (none, st')) :
    st'.repo.refs.map Prod.fst = st.repo.refs.map Prod.fst
  ∧ st'.repo.refs.map (fun nr => nr.2.length) = st.repo.refs.map (fun nr => nr.2.length)
  ∧ ∀ nr ∈ st'.repo.refs, ∀ c ∈ nr.2, c.authorName = A ∧ c.authorEmail = E := by
  have hfieldsA : ∀ c : Commit,
      (author_env_filter A E c).authorName = A ∧ (author_env_filter A E c).authorEmail = E :=
    fun c => author_env_filter_fields A E c
  cases ta with
  | false =>
    rw [update_commit_metadata_authfail A E hA hE nd td st] at h
    simp at h
  | true =>
    rcases hnd : nd with - | l
    · rw [hnd, update_commit_metadata_auth_nodates A E hA hE none (Or.inl rfl) td st] at h
      obtain ⟨-, rfl⟩ := Prod.mk.injEq .. ▸ h
      exact ⟨filter_branch_all_names _ _, filter_branch_all_lengths _ _,
        filter_branch_all_fields _ A E hfieldsA _⟩
    · cases l with
      | nil =>
        rw [hnd, update_commit_metadata_auth_nodates A E hA hE (some []) (Or.inr rfl) td st] at h
        obtain ⟨-, rfl⟩ := Prod.mk.injEq .. ▸ h
        exact ⟨filter_branch_all_names _ _, filter_branch_all_lengths _ _,
          filter_branch_all_fields _ A E hfieldsA _⟩
      | cons d ds =>
        rw [hnd, update_commit_metadata_auth_dates A E hA hE d ds td st] at h
        by_cases hcount : (iterCommits (filter_branch_all (author_env_filter A E) st.repo)).length
            = (d :: ds).length
        · cases td with
          | false =>
            rw [update_commit_dates_toolfail (d :: ds) _ hcount] at h
            simp at h
          | true =>
            rw [update_commit_dates_ok (d :: ds) _ hcount] at h
            obtain ⟨-, rfl⟩ := Prod.mk.injEq .. ▸ h
            simp only
            rw [filter_branch_all_comp]
            have hfields : ∀ c : Commit,
                ((date_env_filter (buildDateMap (iterCommits (filter_branch_all
                    (author_env_filter A E) st.repo)) (d :: ds)))
                  (author_env_filter A E c)).authorName = A
              ∧ ((date_env_filter (buildDateMap (iterCommits (filter_branch_all
                    (author_env_filter A E) st.repo)) (d :: ds)))
                  (author_env_filter A E c)).authorEmail = E := by
              intro c
              rw [(date_env_filter_author _ _).1, (date_env_filter_author _ _).2]
              exact hfieldsA c
            exact ⟨filter_branch_all_names _ _, filter_branch_all_lengths _ _,
              filter_branch_all_fields _ A E hfields _⟩
        · rw [update_commit_dates_mismatch (d :: ds) td _ hcount] at h
          simp at h

/-- C2 witness: the all-refs identity rewrite evaluated on a two-ref
repository whose commits carry other identities. -/
theorem update_commit_metadata_identity_witness :
    ((update_commit_metadata "A" "a@x.com" none true true stTwo).2).repo.refs.map Prod.fst
        = stTwo.repo.refs.map Prod.fst
  ∧ ((update_commit_metadata "A" "a@x.com" none true true stTwo).2).repo.refs.map
        (fun nr => nr.2.length)
      = stTwo.repo.refs.map (fun nr => nr.2.length)
  ∧ ∀ nr ∈ ((update_commit_metadata "A" "a@x.com" none true true stTwo).2).repo.refs,
      ∀ c ∈ nr.2, c.authorName = "A" ∧ c.authorEmail = "a@x.com" :=
  update_commit_metadata_identity "A" "a@x.com" none true true stTwo
    ((update_commit_metadata "A" "a@x.com" none true true stTwo).2)
    (by decide) (by decide) (by decide)

/-- C3 (corrected), counterexample to the claim as stated: on a repository
with one commit, `update_commit_metadata` with a new identity and two
supplied timestamps does fail with the count mismatch, but only after the
author rewrite has already run: the refs are mutated on this failure path,
so the validation does not precede every rewrite. -/
theorem update_commit_metadata_mismatch_cex :
    (update_commit_metadata "A" "a@x.com" (some ["d1", "d2"]) true true stOne).1
        = some .countMismatch
  ∧ (update_commit_metadata "A" "a@x.com" (some ["d1", "d2"]) true true stOne).2.repo
        ≠ stOne.repo := by
  decide

/-- C3 (corrected, amended claim): a nonempty timestamp list whose length
differs from the commit count makes `update_commit_metadata` fail with the
count mismatch, and the date-rewrite step itself mutates nothing; the refs
are unchanged only when no author rewrite was requested — a requested
author rewrite executes before the validation, so on that failure path the
refs already carry the new identity; moreover an empty timestamp list
bypasses the validation entirely (Python `if new_dates:`) and never
produces the count-mismatch failure. -/
theorem update_commit_metadata_mismatch_amended (A E : String) (d : String) (ds : List String)
    (ta td : Bool) (st : RewriteState)
    (hlen : (d :: ds : List String).length ≠ (iterCommits st.repo).length) :
    (¬(A ≠ "" ∧ E ≠ "") →
        update_commit_metadata A E (some (d :: ds)) ta td st = (some .countMismatch, st))
  ∧ (A ≠ "" → E ≠ "" → ta = true →
        update_commit_metadata A E (some (d :: ds)) ta td st
          = (some .countMismatch,
             { st with repo := filter_branch_all (author_env_filter A E) st.repo }))
  ∧ (update_commit_metadata A E (some []) ta td st).1 ≠ some .countMismatch := by
  refine ⟨?_, ?_, ?_⟩
  · intro hAE
    rw [update_commit_metadata_noauth A E hAE d ds ta td st]
    exact update_commit_dates_mismatch (d :: ds) td st (fun hc => hlen hc.symm)
  · intro hA hE hta
    subst hta
    rw [update_commit_metadata_auth_dates A E hA hE d ds td st]
    apply update_commit_dates_mismatch
    simp only [iterCommits_filter_branch_all, List.length_map]
    exact fun hc => hlen hc.symm
  · by_cases hAE : A ≠ "" ∧ E ≠ ""
    · cases ta with
      | false =>
        rw [update_commit_metadata_authfail A E hAE.1 hAE.2 (some []) td st]
        simp
      | true =>
        rw [update_commit_metadata_auth_nodates A E hAE.1 hAE.2 (some []) (Or.inr rfl) td st]
        simp
    · rw [update_commit_metadata_noauth_nodates A E hAE (some []) (Or.inr rfl) ta td st]
      simp

/-- C3 witness: the amended claim's no-author-rewrite case evaluated on a
one-commit repository with two supplied timestamps. -/
theorem update_commit_metadata_mismatch_amended_witness :
    update_commit_metadata "" "" (some ["d1", "d2"]) true true stOne
      = (some .countMismatch, stOne) :=
  (update_commit_metadata_mismatch_amended "" "" "d1" ["d2"] true true stOne (by decide)).1
    (by simp)

/-- C9 (corrected), counterexample to the claim as stated: when the
underlying `git filter-branch` exits nonzero, the `RuntimeError` is raised
before the `os.remove` calls, so both scratch files (`date_map.txt` and
`change_dates.sh`) are left in place on the failure path. -/
theorem scratch_cleanup_cex :
    update_commit_dates ["d1"] false stOne
      = (some .toolError,
         { repo := repoOne, scratch := ["date_map.txt", "change_dates.sh"] }) := by
  decide

/-- C9 (corrected, amended claim): the scratch files driving the date
rewrite are removed before the step completes on the success path of the
underlying rewrite tool; on the tool's failure path the step raises before
the removal and both scratch files remain present. -/
theorem scratch_cleanup_amended (ds : List String) (st : RewriteState) (toolOk : Bool)
    (hlen : (iterCommits st.repo).length = ds.length)
    (h1 : "date_map.txt" ∉ st.scratch) (h2 : "change_dates.sh" ∉ st.scratch) :
    (toolOk = true →
        (update_commit_dates ds toolOk st).1 = none
      ∧ (update_commit_dates ds toolOk st).2.scratch = st.scratch)
  ∧ (toolOk = false →
        (update_commit_dates ds toolOk st).1 = some .toolError
      ∧ "date_map.txt" ∈ (update_commit_dates ds toolOk st).2.scratch
      ∧ "change_dates.sh" ∈ (update_commit_dates ds toolOk st).2.scratch) := by
  constructor
  · intro hok
    subst hok
    rw [update_commit_dates_ok ds st hlen]
    refine ⟨rfl, ?_⟩
    simp only
    rw [List.filter_append]
    have hkeep : st.scratch.filter (fun f => !(f = "date_map.txt" || f = "change_dates.sh"))
        = st.scratch := by
      rw [List.filter_eq_self]
      intro a ha
      simp only [Bool.not_eq_true', Bool.or_eq_false_iff, decide_eq_false_iff_not]
      exact ⟨fun hq => h1 (hq ▸ ha), fun hq => h2 (hq ▸ ha)⟩
    rw [hkeep]
    simp
  · intro hfail
    subst hfail
    rw [update_commit_dates_toolfail ds st hlen]
    exact ⟨rfl, by simp, by simp⟩

/-- C9 witness: the amended claim's success path evaluated on a one-commit
repository. -/
theorem scratch_cleanup_amended_witness :
    (update_commit_dates ["d1"] true stOne).1 = none
  ∧ (update_commit_dates ["d1"] true stOne).2.scratch = stOne.scratch :=
  (scratch_cleanup_amended ["d1"] stOne true (by decide) (by decide) (by decide)).1 rfl

/-! ## Lemmas about the timeline generator -/

theorem randomize_commit_dates_length (repo : Repo) (s e : ℚ) (rand : Nat → ℚ) :
    (randomize_commit_dates repo s e rand).length = (iterCommits repo).length := by
  simp [randomize_commit_dates, sortDesc]

theorem randomize_commit_dates_mem (repo : Repo) (s e : ℚ) (rand : Nat → ℚ) {d : ℚ}
    (hd : d ∈ randomize_commit_dates repo s e rand) :
    ∃ i : Nat, d = s + rand i * (e - s) := by
  simp only [randomize_commit_dates, sortDesc, List.mem_map, List.mem_insertionSort,
    List.mem_range] at hd
  obtain ⟨sec, ⟨i, -, rfl⟩, rfl⟩ := hd
  exact ⟨i, rfl⟩

theorem randomize_commit_dates_sorted (repo : Repo) (s e : ℚ) (rand : Nat → ℚ) :
    List.Sorted (fun a b : ℚ => b ≤ a) (randomize_commit_dates repo s e rand) := by
  simp only [randomize_commit_dates, sortDesc]
  exact List.Pairwise.map _ (fun a b hab => add_le_add_left hab s)
    (List.sorted_insertionSort _ _)

/-- C1 (confirmed): for any commit count and any interval `[s, e]` with
`s ≤ e`, `randomize_commit_dates` returns exactly one timestamp per commit,
each within `[s, e]`, sorted in non-increasing order; in particular for a
repository with no commits it returns the empty sequence (and no failure
path exists). -/
theorem randomize_commit_dates_spec (repo : Repo) (s e : ℚ) (rand : Nat → ℚ)
    (hse : s ≤ e) (hrand : ∀ i, 0 ≤ rand i ∧ rand i < 1) :
    (randomize_commit_dates repo s e rand).length = (iterCommits repo).length
  ∧ (∀ d ∈ randomize_commit_dates repo s e rand, s ≤ d ∧ d ≤ e)
  ∧ List.Sorted (fun a b : ℚ => b ≤ a) (randomize_commit_dates repo s e rand)
  ∧ (iterCommits repo = [] → randomize_commit_dates repo s e rand = []) := by
  refine ⟨randomize_commit_dates_length repo s e rand, ?_,
    randomize_commit_dates_sorted repo s e rand, ?_⟩
  · intro d hd
    obtain ⟨i, rfl⟩ := randomize_commit_dates_mem repo s e rand hd
    have h0 : (0:ℚ) ≤ e - s := sub_nonneg.mpr hse
    have hi := hrand i
    constructor
    · nlinarith [hi.1, hi.2]
    · nlinarith [hi.1, hi.2]
  · intro hnil
    have hlen := randomize_commit_dates_length repo s e rand
    rw [hnil] at hlen
    exact List.eq_nil_of_length_eq_zero (by simpa using hlen)

/-- C1 witness: the timeline contract evaluated on a two-commit repository
over the interval `[0, 10]` with all draws equal to one half. -/
theorem randomize_commit_dates_spec_witness :
    (randomize_commit_dates repoTwo 0 10 (fun _ => (1:ℚ)/2)).length
        = (iterCommits repoTwo).length
  ∧ (∀ d ∈ randomize_commit_dates repoTwo 0 10 (fun _ => (1:ℚ)/2), (0:ℚ) ≤ d ∧ d ≤ 10)
  ∧ List.Sorted (fun a b : ℚ => b ≤ a) (randomize_commit_dates repoTwo 0 10 (fun _ => (1:ℚ)/2))
  ∧ (iterCommits repoTwo = [] → randomize_commit_dates repoTwo 0 10 (fun _ => (1:ℚ)/2) = []) :=
  randomize_commit_dates_spec repoTwo 0 10 (fun _ => (1:ℚ)/2) (by norm_num)
    (fun i => ⟨by norm_num, by norm_num⟩)

/-- C7 (corrected), counterexample to the claim as stated: with
`end_date = 0 < 10 = start_date` on a one-commit repository,
`randomize_commit_dates` performs no interval validation and raises
nothing: it returns a timestamp list rather than failing. -/
theorem randomize_invalid_interval_cex :
    randomize_commit_dates repoOne 10 0 (fun _ => 0) = [10] := by
  norm_num [randomize_commit_dates, iterCommits, repoOne, sortDesc, List.insertionSort,
    List.orderedInsert, List.range_succ]

/-- C7 (corrected, amended claim): for `end_date < start_date` the
generator does not fail; it still returns one timestamp per commit, each in
the reversed interval `(end_date, start_date]`, sorted non-increasing. -/
theorem randomize_invalid_interval_amended (repo : Repo) (s e : ℚ) (rand : Nat → ℚ)
    (hse : e < s) (hrand : ∀ i, 0 ≤ rand i ∧ rand i < 1) :
    (randomize_commit_dates repo s e rand).length = (iterCommits repo).length
  ∧ (∀ d ∈ randomize_commit_dates repo s e rand, e < d ∧ d ≤ s)
  ∧ List.Sorted (fun a b : ℚ => b ≤ a) (randomize_commit_dates repo s e rand) := by
  refine ⟨randomize_commit_dates_length repo s e rand, ?_,
    randomize_commit_dates_sorted repo s e rand⟩
  intro d hd
  obtain ⟨i, rfl⟩ := randomize_commit_dates_mem repo s e rand hd
  have hi := hrand i
  constructor
  · nlinarith [hi.1, hi.2]
  · nlinarith [hi.1, hi.2]

/-- C7 witness: the amended claim evaluated on a one-commit repository with
`start_date = 10`, `end_date = 0` and a draw of one half. -/
theorem randomize_invalid_interval_amended_witness :
    (randomize_commit_dates repoOne 10 0 (fun _ => (1:ℚ)/2)).length
        = (iterCommits repoOne).length
  ∧ (∀ d ∈ randomize_commit_dates repoOne 10 0 (fun _ => (1:ℚ)/2), (0:ℚ) < d ∧ d ≤ 10)
  ∧ List.Sorted (fun a b : ℚ => b ≤ a) (randomize_commit_dates repoOne 10 0 (fun _ => (1:ℚ)/2)) :=
  randomize_invalid_interval_amended repoOne 10 0 (fun _ => (1:ℚ)/2) (by norm_num)
    (fun i => ⟨by norm_num, by norm_num⟩)

/-! ## Batch orchestration and branch renaming -/

theorem processOneRepo_url_cleanup (ops : BatchOps) (w : ItemWorld) (url : String) :
    (processOneRepo ops w url).1.repo_url = url ∧ (processOneRepo ops w url).2 = 1 := by
  rw [processOneRepo]
  cases w.initStep <;> exact ⟨rfl, rfl⟩

theorem processLoop_spec (ops : BatchOps) (world : Nat → ItemWorld) :
    ∀ (urls : List String) (i : Nat),
      (processLoop ops world urls i).1.length = urls.length
    ∧ (processLoop ops world urls i).1.map (fun res => res.repo_url) = urls
    ∧ (processLoop ops world urls i).2 = urls.length := by
  intro urls
  induction urls with
  | nil => intro i; exact ⟨rfl, rfl, rfl⟩
  | cons url rest ih =>
    intro i
    obtain ⟨ih1, ih2, ih3⟩ := ih (i + 1)
    rw [processLoop]
    refine ⟨?_, ?_, ?_⟩
    · simp [ih1]
    · simp [ih2, (processOneRepo_url_cleanup ops (world i) url).1]
    · simp [ih3, (processOneRepo_url_cleanup ops (world i) url).2]
      omega

/-- C4 (confirmed): whatever the outcome of every step of every work item
(each step may raise), `process_batch` never aborts: it returns exactly one
result per submitted locator, in submission order, and the working-copy
cleanup runs exactly once per item, on every exit path (success or
caught failure). -/
theorem process_batch_spec (ops : BatchOps) (world : Nat → ItemWorld) (urls : List String) :
    (process_batch ops world urls).1.length = urls.length
  ∧ (process_batch ops world urls).1.map (fun res => res.repo_url) = urls
  ∧ (process_batch ops world urls).2 = urls.length :=
  processLoop_spec ops world urls 0

/-- C8 (confirmed): `rename_branch` fails with the branch-not-found outcome
when the old name is absent, and with the already-exists outcome when the
new name is present (including the no-op rename of a branch to its own
name); in both failure cases the branch list is returned unchanged, so
nothing is overwritten and both colliding branches remain present. -/
theorem rename_branch_spec (branches : List String) (old_name new_name : String) :
    (old_name ∉ branches →
        rename_branch branches old_name new_name = (.notFound, branches))
  ∧ (old_name ∈ branches → new_name ∈ branches →
        rename_branch branches old_name new_name = (.alreadyExists, branches)) := by
  constructor
  · intro h
    rw [rename_branch, if_pos h]
  · intro h1 h2
    rw [rename_branch, if_neg (fun hn => hn h1), if_pos h2]

/-- C8 witness: both failure contracts evaluated on the branch list
`["main", "dev"]`, including the self-rename no-op case. -/
theorem rename_branch_spec_witness :
    rename_branch ["main", "dev"] "feature" "topic" = (.notFound, ["main", "dev"])
  ∧ rename_branch ["main", "dev"] "main" "main" = (.alreadyExists, ["main", "dev"]) :=
  ⟨(rename_branch_spec ["main", "dev"] "feature" "topic").1 (by decide),
   (rename_branch_spec ["main", "dev"] "main" "main").2 (by decide) (by decide)⟩

end RepoRewrite
